import Mathlib

/-!
Shallow embedding of the multi-label classification notebook
(`multi_label_classify.ipynb`) and proofs about its metric pipeline,
dataset adapter and label binarizer.

Score and probability matrices are embedded as functions
`Fin n → Fin m : ℝ` (examples × labels).  The sklearn metric functions
called by the notebook (`f1_score(average='macro')`,
`roc_auc_score(average='macro')`, `hamming_loss`) are embedded by their
documented semantics on binary-indicator ground truth.
-/

namespace MultiLabel

/-- Elementwise logistic sigmoid, the semantics of `torch.nn.Sigmoid`
applied in `multi_label_metrics`. -/
noncomputable def sigmoid (s : ℝ) : ℝ := 1 / (1 + Real.exp (-s))

variable {n m : ℕ}

/-- The line `probs = sigmoid(torch.Tensor(predictions))`: the sigmoid applied
elementwise to the raw score matrix. -/
noncomputable def probsOf (P : Fin n → Fin m → ℝ) : Fin n → Fin m → ℝ :=
  fun i j => sigmoid (P i j)

/-- The lines `y_pred = np.zeros(probs.shape); y_pred[np.where(probs >= threshold)] = 1`:
the binary prediction matrix, 1 exactly where the probability reaches the
threshold (inclusive comparison). -/
noncomputable def metricsYPred (probs : Fin n → Fin m → ℝ) (threshold : ℝ) :
    Fin n → Fin m → ℝ :=
  fun i j => if probs i j ≥ threshold then 1 else 0

/-- True positives of one label column: slots predicted 1 whose truth is 1. -/
noncomputable def tpCount (yt yp : Fin n → ℝ) : ℝ :=
  ∑ i, if yt i = 1 ∧ yp i = 1 then 1 else 0

/-- False positives of one label column: slots predicted 1 whose truth is not 1. -/
noncomputable def fpCount (yt yp : Fin n → ℝ) : ℝ :=
  ∑ i, if yt i ≠ 1 ∧ yp i = 1 then 1 else 0

/-- False negatives of one label column: slots with truth 1 not predicted 1. -/
noncomputable def fnCount (yt yp : Fin n → ℝ) : ℝ :=
  ∑ i, if yt i = 1 ∧ yp i ≠ 1 then 1 else 0

/-- sklearn precision with `zero_division=0`: `tp / (tp + fp)`, 0 when the
denominator is 0. -/
noncomputable def precisionOf (tp fp : ℝ) : ℝ :=
  if tp + fp = 0 then 0 else tp / (tp + fp)

/-- sklearn recall with `zero_division=0`: `tp / (tp + fn)`, 0 when the
denominator is 0. -/
noncomputable def recallOf (tp fn : ℝ) : ℝ :=
  if tp + fn = 0 then 0 else tp / (tp + fn)

/-- sklearn F1 from precision and recall: harmonic mean, 0 when `p + r = 0`. -/
noncomputable def f1FromPR (p r : ℝ) : ℝ :=
  if p + r = 0 then 0 else 2 * p * r / (p + r)

/-- Per-label F1 as sklearn computes it (precision/recall of the column). -/
noncomputable def f1Label (yt yp : Fin n → ℝ) : ℝ :=
  f1FromPR (precisionOf (tpCount yt yp) (fpCount yt yp))
    (recallOf (tpCount yt yp) (fnCount yt yp))

/-- Semantics of `f1_score(y_true, y_pred, average='macro')`: unweighted mean over the
label columns of the per-label F1. -/
noncomputable def f1Avg (yt yp : Fin n → Fin m → ℝ) : ℝ :=
  (∑ j, f1Label (fun i => yt i j) (fun i => yp i j)) / m

/-- Mann-Whitney pair score used by ROC-AUC: 1 if the positive example's
score exceeds the negative's, 1/2 on a tie, 0 otherwise. -/
noncomputable def pairScore (a b : ℝ) : ℝ :=
  if b < a then 1 else if a = b then 1 / 2 else 0

/-- Per-label ROC-AUC of a score column against a binary truth column:
the normalised Mann-Whitney statistic, which is what
`roc_auc_score` computes for binary ground truth. -/
noncomputable def aucLabel (yt ys : Fin n → ℝ) : ℝ :=
  (∑ i, ∑ k, if yt i = 1 ∧ yt k = 0 then pairScore (ys i) (ys k) else 0) /
    ((∑ i, if yt i = 1 then (1 : ℝ) else 0) *
      (∑ k, if yt k = 0 then (1 : ℝ) else 0))

/-- Semantics of `roc_auc_score(y_true, ·, average='macro')`: unweighted mean over the
label columns of the per-label AUC. -/
noncomputable def rocAucAvg (yt ys : Fin n → Fin m → ℝ) : ℝ :=
  (∑ j, aucLabel (fun i => yt i j) (fun i => ys i j)) / m

/-- Semantics of `hamming_loss(y_true, y_pred)`: the number of slots where the two
matrices differ (nonzero difference), over the total number of slots. -/
noncomputable def hammingLoss (yt yp : Fin n → Fin m → ℝ) : ℝ :=
  (∑ i, ∑ j, if yt i j - yp i j ≠ 0 then (1 : ℝ) else 0) / (n * m)

/-- The notebook's `multi_label_metrics(predictions, labels, threshold=0.3)`:
sigmoid, inclusive thresholding, then macro F1, macro ROC-AUC (applied, as in
the source, to the thresholded `y_pred`) and Hamming loss, returned as the
dict `{"roc_auc": …, "hamming_loss": …, "f1": …}`. -/
noncomputable def multi_label_metrics (predictions labels : Fin n → Fin m → ℝ)
    (threshold : ℝ := 0.3) : List (String × ℝ) :=
  let probs : Fin n → Fin m → ℝ := fun i j => sigmoid (predictions i j)
  let y_pred : Fin n → Fin m → ℝ := fun i j => if probs i j ≥ threshold then 1 else 0
  let y_true := labels
  let f1 := f1Avg y_true y_pred
  let roc_auc := rocAucAvg y_true y_pred
  let hamming := hammingLoss y_true y_pred
  [("roc_auc", roc_auc), ("hamming_loss", hamming), ("f1", f1)]

/-- The shape of `transformers.EvalPrediction`: model outputs (possibly a tuple whose
first component is the logits) together with the ground-truth labels. -/
structure EvalPrediction (n m : ℕ) where
  predictions : (Fin n → Fin m → ℝ) ⊕ ((Fin n → Fin m → ℝ) × List (Fin n → Fin m → ℝ))
  label_ids : Fin n → Fin m → ℝ

/-- The notebook's `compute_metrics`: unwrap a tuple of predictions to its
first element and call `multi_label_metrics` with its default threshold. -/
noncomputable def compute_metrics (p : EvalPrediction n m) : List (String × ℝ) :=
  let preds := match p.predictions with
    | Sum.inl a => a
    | Sum.inr t => t.1
  multi_label_metrics preds p.label_ids

/-- The inference cell's `binary_predictions = (predicted_probabilities > 0.1).astype(int)`:
strict comparison against 0.1. -/
noncomputable def binary_predictions (probs : Fin n → Fin m → ℝ) :
    Fin n → Fin m → ℤ :=
  fun i j => if probs i j > 0.1 then 1 else 0

/-- Semantics of `MultiLabelBinarizer.fit`: the fitted vocabulary `classes_` is the sorted
set (deduplicated union) of the label strings seen in the training lists. -/
def fitClasses (train : List (List String)) : List String :=
  List.insertionSort (· ≤ ·) train.flatten.dedup

/-- Semantics of `MultiLabelBinarizer.transform` on one label set: the indicator vector
over the fitted vocabulary, one slot per class in vocabulary order. -/
def mlbTransform (classes : List String) (s : List String) : List ℕ :=
  classes.map (fun c => if c ∈ s then 1 else 0)

/-- Semantics of `MultiLabelBinarizer.inverse_transform` on one indicator vector: the
classes whose slot holds a 1, in vocabulary order. -/
def mlbInverse (classes : List String) (v : List ℕ) : List String :=
  ((classes.zip v).filter (fun cb => cb.2 == 1)).map Prod.fst

/-- One row of the loaded csv splits: an `entry` text and its parsed list of
label strings. -/
structure DataRow where
  entry : String
  labels : List String

/-- The notebook's `CaseNoteDataset`: stored texts, binarized float label
vectors, the tokenizer, and `max_len` defaulting to 250. -/
structure CaseNoteDataset where
  texts : List String
  labels : List (List ℝ)
  tokenizer : String → List ℕ
  max_len : ℕ := 250

/-- The method `CaseNoteDataset.__len__`: the length of the stored texts. -/
def CaseNoteDataset.len (d : CaseNoteDataset) : ℕ := d.texts.length

/-- The dataset objects the notebook constructs: texts are the `entry`
column of a split, labels are the fitted binarizer's transform of the
`labels` column cast to float. -/
noncomputable def datasetFromSplit (df : List DataRow) (classes : List String)
    (tok : String → List ℕ) : CaseNoteDataset :=
  { texts := df.map (fun r => r.entry)
    labels := df.map (fun r => (mlbTransform classes r.labels).map (fun b => (b : ℝ)))
    tokenizer := tok }

/-- The record `__getitem__` returns: flattened token ids, attention mask,
and the label vector. -/
structure EncodedItem where
  input_ids : List ℕ
  attention_mask : List ℕ
  labels : List ℝ

/-- The tokenizer call `tokenizer(text, truncation=True, padding="max_length",
max_length=max_len)`: the raw token-id sequence is truncated to `max_len` and
padded with the pad id 0 up to `max_len`; the attention mask is 1 on the kept
tokens and 0 on the padding. -/
def encodeText (tok : String → List ℕ) (maxLen : ℕ) (text : String) :
    List ℕ × List ℕ :=
  let ids := (tok text).take maxLen
  (ids ++ List.replicate (maxLen - ids.length) 0,
    List.replicate ids.length 1 ++ List.replicate (maxLen - ids.length) 0)

/-- The method `CaseNoteDataset.__getitem__`: encode the text at `idx` and pair it with
the label vector at `idx`. -/
def CaseNoteDataset.getitem (d : CaseNoteDataset) (idx : ℕ) : EncodedItem :=
  let text := d.texts.getD idx ""
  let enc := encodeText d.tokenizer d.max_len text
  { input_ids := enc.1
    attention_mask := enc.2
    labels := d.labels.getD idx [] }

/-- The standard per-label F1 score `2·tp / (2·tp + fp + fn)` between a
prediction column and a ground-truth column, as the spec states it. -/
noncomputable def f1Standard (yt yp : Fin n → ℝ) : ℝ :=
  2 * tpCount yt yp / (2 * tpCount yt yp + fpCount yt yp + fnCount yt yp)

/-- A concrete raw-score matrix (2 examples, 1 label): scores -1 and -2. -/
noncomputable def scoresC1 : Fin 2 → Fin 1 → ℝ := ![![-1], ![-2]]

/-- The matching ground truth: example 0 positive, example 1 negative. -/
noncomputable def labelsC1 : Fin 2 → Fin 1 → ℝ := ![![1], ![0]]

/-- A concrete one-example dataset used to witness the adapter claims. -/
noncomputable def witnessDataset : CaseNoteDataset :=
  { texts := ["black chair"]
    labels := [[1, 0]]
    tokenizer := fun _ => [101, 2304, 3242, 102] }

theorem sigmoid_pos (s : ℝ) : 0 < sigmoid s := by
  unfold sigmoid
  have h := Real.exp_pos (-s)
  positivity

theorem sigmoid_lt_one (s : ℝ) : sigmoid s < 1 := by
  unfold sigmoid
  rw [div_lt_one (by positivity)]
  linarith [Real.exp_pos (-s)]

theorem sigmoid_strictMono : StrictMono sigmoid := by
  intro a b hab
  unfold sigmoid
  have hb : (0 : ℝ) < 1 + Real.exp (-b) := by positivity
  have hlt : 1 + Real.exp (-b) < 1 + Real.exp (-a) := by
    have := Real.exp_lt_exp.mpr (neg_lt_neg hab)
    linarith
  exact one_div_lt_one_div_of_lt hb hlt

/-- C5: `multi_label_metrics` first applies the logistic sigmoid
`s ↦ 1/(1+exp(-s))` elementwise, every such probability lies strictly
between 0 and 1, and each of the three reported metrics is computed from the
elementwise-sigmoid matrix `probsOf P` (thresholded where the source
thresholds). -/
theorem sigmoid_step_spec :
    (∀ s : ℝ, sigmoid s = 1 / (1 + Real.exp (-s)) ∧ 0 < sigmoid s ∧ sigmoid s < 1) ∧
    (∀ (n m : ℕ) (P L : Fin n → Fin m → ℝ) (t : ℝ),
      multi_label_metrics P L t =
        [("roc_auc", rocAucAvg L (metricsYPred (probsOf P) t)),
          ("hamming_loss", hammingLoss L (metricsYPred (probsOf P) t)),
          ("f1", f1Avg L (metricsYPred (probsOf P) t))]) :=
  ⟨fun s => ⟨rfl, sigmoid_pos s, sigmoid_lt_one s⟩,
    fun _ _ _ _ _ => rfl⟩

/-- C2: the binary prediction matrix inside `multi_label_metrics` is the
elementwise comparison of each probability with the threshold; the default
threshold of `multi_label_metrics` is 0.3 and `compute_metrics` invokes it
with exactly that default; the ad hoc inference cell thresholds its
probabilities at 0.1 instead. -/
theorem threshold_constants :
    (∀ (n m : ℕ) (probs : Fin n → Fin m → ℝ) (t : ℝ) (i : Fin n) (j : Fin m),
      (metricsYPred probs t i j = 1 ↔ probs i j ≥ t) ∧
      (metricsYPred probs t i j = 1 ∨ metricsYPred probs t i j = 0)) ∧
    (∀ (n m : ℕ) (P L : Fin n → Fin m → ℝ),
      multi_label_metrics P L = multi_label_metrics P L (0.3 : ℝ)) ∧
    (∀ (n m : ℕ) (p : EvalPrediction n m),
      compute_metrics p =
        multi_label_metrics
          (match p.predictions with
            | Sum.inl a => a
            | Sum.inr t => t.1)
          p.label_ids (0.3 : ℝ)) ∧
    (∀ (n m : ℕ) (probs : Fin n → Fin m → ℝ) (i : Fin n) (j : Fin m),
      (binary_predictions probs i j = 1 ↔ probs i j > (0.1 : ℝ)) ∧
      (binary_predictions probs i j = 1 ∨ binary_predictions probs i j = 0)) := by
  refine ⟨fun n m probs t i j => ?_, fun _ _ _ _ => rfl, fun _ _ _ => rfl,
    fun n m probs i j => ?_⟩
  · by_cases h : probs i j ≥ t
    · simp [metricsYPred, h]
    · simp [metricsYPred, h]
  · by_cases h : probs i j > (0.1 : ℝ)
    · simp [binary_predictions, h]
    · simp [binary_predictions, h]

/-- C10: `compute_metrics` is exactly `multi_label_metrics` at the default
threshold 0.3, applied to the first element of a tuple of predictions (or
the predictions themselves), and the returned mapping has exactly the keys
`roc_auc`, `hamming_loss`, `f1`. -/
theorem compute_metrics_spec :
    ∀ (n m : ℕ) (p : EvalPrediction n m),
      compute_metrics p =
        multi_label_metrics
          (match p.predictions with
            | Sum.inl a => a
            | Sum.inr t => t.1)
          p.label_ids (0.3 : ℝ) ∧
      (compute_metrics p).map Prod.fst = ["roc_auc", "hamming_loss", "f1"] :=
  fun _ _ _ => ⟨rfl, rfl⟩

/-- C9: at the boundary the two thresholding paths disagree: a probability
exactly equal to the threshold yields 1 in `multi_label_metrics`'s inclusive
comparison, but a probability exactly equal to 0.1 yields 0 in the inference
cell's strict comparison. -/
theorem boundary_thresholds :
    ∀ (n m : ℕ) (probs : Fin n → Fin m → ℝ) (t : ℝ) (i : Fin n) (j : Fin m),
      (probs i j = t → metricsYPred probs t i j = 1) ∧
      (probs i j = (0.1 : ℝ) → binary_predictions probs i j = 0) := by
  intro n m probs t i j
  constructor
  · intro h
    simp [metricsYPred, h]
  · intro h
    simp [binary_predictions, h]

/-- C9 witness: at probability exactly 0.1 with threshold 0.1, the metrics
path predicts 1 and the inference path predicts 0. -/
theorem boundary_thresholds_witness :
    metricsYPred (fun _ _ => (0.1 : ℝ)) (0.1 : ℝ) (0 : Fin 1) (0 : Fin 1) = 1 ∧
    binary_predictions (fun _ _ => (0.1 : ℝ)) (0 : Fin 1) (0 : Fin 1) = 0 :=
  ⟨(boundary_thresholds 1 1 (fun _ _ => (0.1 : ℝ)) (0.1 : ℝ) 0 0).1 rfl,
    (boundary_thresholds 1 1 (fun _ _ => (0.1 : ℝ)) (0.1 : ℝ) 0 0).2 rfl⟩

theorem tpCount_nonneg (yt yp : Fin n → ℝ) : 0 ≤ tpCount yt yp :=
  Finset.sum_nonneg fun _ _ => by split <;> norm_num

theorem fpCount_nonneg (yt yp : Fin n → ℝ) : 0 ≤ fpCount yt yp :=
  Finset.sum_nonneg fun _ _ => by split <;> norm_num

theorem fnCount_nonneg (yt yp : Fin n → ℝ) : 0 ≤ fnCount yt yp :=
  Finset.sum_nonneg fun _ _ => by split <;> norm_num


/-- The precision/recall formulation of F1 agrees with the standard
`2·tp/(2·tp+fp+fn)` form on nonnegative counts, including the
zero-division cases. -/
theorem f1FromPR_eq_standard (tp fp fn : ℝ) (htp : 0 ≤ tp) (hfp : 0 ≤ fp)
    (hfn : 0 ≤ fn) :
    f1FromPR (precisionOf tp fp) (recallOf tp fn) =
      2 * tp / (2 * tp + fp + fn) := by
  unfold f1FromPR precisionOf recallOf
  rcases eq_or_lt_of_le htp with h0 | hpos
  · rw [← h0]
    simp
  · have h1 : tp + fp ≠ 0 := by positivity
    have h2 : tp + fn ≠ 0 := by positivity
    rw [if_neg h1, if_neg h2]
    have hpr : tp / (tp + fp) + tp / (tp + fn) ≠ 0 := by positivity
    rw [if_neg hpr]
    have h3 : 2 * tp + fp + fn ≠ 0 := by positivity
    field_simp
    ring

/-- sklearn's per-label F1 agrees with the standard form. -/
theorem f1Label_eq_f1Standard (yt yp : Fin n → ℝ) :
    f1Label yt yp = f1Standard yt yp :=
  f1FromPR_eq_standard _ _ _ (tpCount_nonneg yt yp) (fpCount_nonneg yt yp)
    (fnCount_nonneg yt yp)

/-- C4: the `f1` entry returned by `multi_label_metrics` is the macro
(unweighted) average over the label columns of the per-label F1 score
between the thresholded prediction column and the ground-truth column. -/
theorem f1_macro_spec :
    ∀ (n m : ℕ) (P L : Fin n → Fin m → ℝ) (t : ℝ),
      (multi_label_metrics P L t).lookup "f1" =
        some ((∑ j, f1Standard (fun i => L i j)
          (fun i => metricsYPred (probsOf P) t i j)) / m) := by
  intro n m P L t
  have h : (multi_label_metrics P L t).lookup "f1" =
      some (f1Avg L (metricsYPred (probsOf P) t)) := rfl
  rw [h]
  unfold f1Avg
  congr 1
  congr 1
  exact Finset.sum_congr rfl fun j _ => f1Label_eq_f1Standard _ _

open Classical in
/-- C3: the `hamming_loss` entry returned by `multi_label_metrics` is the
number of (example, label) slots where the thresholded binary prediction
differs from the ground truth, divided by the total number of slots. -/
theorem hamming_loss_spec :
    ∀ (n m : ℕ) (P L : Fin n → Fin m → ℝ) (t : ℝ),
      (multi_label_metrics P L t).lookup "hamming_loss" =
        some ((((Finset.univ ×ˢ Finset.univ).filter
          (fun q : Fin n × Fin m =>
            metricsYPred (probsOf P) t q.1 q.2 ≠ L q.1 q.2)).card : ℝ) / (n * m)) := by
  intro n m P L t
  have h : (multi_label_metrics P L t).lookup "hamming_loss" =
      some (hammingLoss L (metricsYPred (probsOf P) t)) := rfl
  rw [h]
  unfold hammingLoss
  congr 1
  congr 1
  rw [Finset.card_filter, Nat.cast_sum, Finset.sum_product]
  refine Finset.sum_congr rfl fun i _ => Finset.sum_congr rfl fun j _ => ?_
  by_cases h : metricsYPred (probsOf P) t i j = L i j
  · rw [h]
    simp
  · rw [if_pos (sub_ne_zero.mpr (Ne.symm h)), if_pos h]
    simp



theorem sigmoid_neg_one_lt : sigmoid (-1) < (0.3 : ℝ) := by
  have he : (2.7182818283 : ℝ) < Real.exp 1 := Real.exp_one_gt_d9
  unfold sigmoid
  rw [neg_neg, div_lt_iff₀ (by positivity)]
  nlinarith

theorem yPredC1_eq :
    metricsYPred (probsOf scoresC1) (0.3 : ℝ) = fun _ _ => (0 : ℝ) := by
  funext i j
  have h1 : sigmoid (-1) < (0.3 : ℝ) := sigmoid_neg_one_lt
  have h2 : sigmoid (-2) < sigmoid (-1) := sigmoid_strictMono (by norm_num)
  unfold metricsYPred probsOf scoresC1
  fin_cases i <;> fin_cases j <;>
    simp only [Fin.zero_eta, Fin.mk_one, Matrix.cons_val_zero, Matrix.cons_val_one,
      Matrix.head_cons] <;>
    rw [if_neg]
  · exact not_le.mpr h1
  · exact not_le.mpr (lt_trans h2 h1)

/-- C1 (code bug): `multi_label_metrics` computes `roc_auc` from the
thresholded binary matrix `y_pred`, not from the sigmoid probabilities.
At scores (-1, -2) against truth (1, 0) with the default threshold 0.3,
the returned roc_auc is 1/2, whereas the macro AUC of the probabilities
(the value the spec describes) is 1. -/
theorem roc_auc_uses_thresholded_preds :
    (multi_label_metrics scoresC1 labelsC1).lookup "roc_auc" =
      some (rocAucAvg labelsC1 (metricsYPred (probsOf scoresC1) (0.3 : ℝ))) ∧
    rocAucAvg labelsC1 (metricsYPred (probsOf scoresC1) (0.3 : ℝ)) = 1 / 2 ∧
    rocAucAvg labelsC1 (probsOf scoresC1) = 1 ∧
    (1 / 2 : ℝ) ≠ 1 := by
  refine ⟨rfl, ?_, ?_, by norm_num⟩
  · rw [yPredC1_eq]
    unfold rocAucAvg aucLabel pairScore labelsC1
    simp only [Fin.sum_univ_one, Fin.sum_univ_two, Matrix.cons_val_zero,
      Matrix.cons_val_one, Matrix.head_cons]
    norm_num
  · have h2 : sigmoid (-2) < sigmoid (-1) := sigmoid_strictMono (by norm_num)
    unfold rocAucAvg aucLabel pairScore probsOf scoresC1 labelsC1
    simp only [Fin.sum_univ_one, Fin.sum_univ_two, Matrix.cons_val_zero,
      Matrix.cons_val_one, Matrix.head_cons]
    norm_num [h2]

theorem mlbInverse_mem {classes : List String} {v : List ℕ} {x : String}
    (h : x ∈ mlbInverse classes v) : x ∈ classes := by
  unfold mlbInverse at h
  obtain ⟨⟨c, b⟩, hmem, rfl⟩ := List.mem_map.mp h
  exact (List.of_mem_zip (List.mem_filter.mp hmem).1).1

theorem mlbInverse_transform (classes S : List String) :
    mlbInverse classes (mlbTransform classes S) =
      classes.filter (fun c => decide (c ∈ S)) := by
  induction classes with
  | nil => rfl
  | cons c cs ih =>
    by_cases h : c ∈ S
    · simp only [mlbInverse, mlbTransform, List.map_cons, List.zip_cons_cons,
        List.filter_cons, if_pos h] at ih ⊢
      simp [ih, h]
    · simp only [mlbInverse, mlbTransform, List.map_cons, List.zip_cons_cons,
        List.filter_cons, if_neg h] at ih ⊢
      simp [ih, h]

theorem transform_mlbInverse (classes : List String) :
    ∀ v : List ℕ, classes.Nodup → v.length = classes.length →
      (∀ b ∈ v, b = 0 ∨ b = 1) →
      mlbTransform classes (mlbInverse classes v) = v := by
  induction classes with
  | nil =>
    intro v _ hlen _
    have hv : v = [] := List.length_eq_zero.mp (by simpa using hlen)
    subst hv
    rfl
  | cons c cs ih =>
    intro v hnd hlen hbin
    cases v with
    | nil => exact absurd hlen (by simp)
    | cons b bs =>
      have hlen' : bs.length = cs.length := by simpa using hlen
      have hc : c ∉ cs := (List.nodup_cons.mp hnd).1
      have hnd' : cs.Nodup := (List.nodup_cons.mp hnd).2
      have hbin' : ∀ x ∈ bs, x = 0 ∨ x = 1 :=
        fun x hx => hbin x (List.mem_cons_of_mem _ hx)
      rcases hbin b (List.mem_cons_self _ _) with hb | hb
      · subst hb
        have hinv : mlbInverse (c :: cs) (0 :: bs) = mlbInverse cs bs := by
          simp [mlbInverse]
        rw [hinv]
        have hcX : c ∉ mlbInverse cs bs := fun hmem => hc (mlbInverse_mem hmem)
        show (if c ∈ mlbInverse cs bs then (1 : ℕ) else 0) ::
          mlbTransform cs (mlbInverse cs bs) = 0 :: bs
        rw [if_neg hcX, ih bs hnd' hlen' hbin']
      · subst hb
        have hinv : mlbInverse (c :: cs) (1 :: bs) = c :: mlbInverse cs bs := by
          simp [mlbInverse]
        rw [hinv]
        show (if c ∈ c :: mlbInverse cs bs then (1 : ℕ) else 0) ::
          mlbTransform cs (c :: mlbInverse cs bs) = 1 :: bs
        rw [if_pos (List.mem_cons_self _ _)]
        have htail : mlbTransform cs (c :: mlbInverse cs bs) =
            mlbTransform cs (mlbInverse cs bs) := by
          unfold mlbTransform
          refine List.map_congr_left fun a ha => ?_
          have hac : a ≠ c := fun hEq => hc (hEq ▸ ha)
          by_cases hmem : a ∈ mlbInverse cs bs
          · rw [if_pos (List.mem_cons_of_mem _ hmem), if_pos hmem]
          · rw [if_neg (by simp [hac, hmem]), if_neg hmem]
        rw [htail, ih bs hnd' hlen' hbin']

/-- C6: the fitted binarizer vocabulary is the sorted duplicate-free list of
the label strings observed in training, `transform`/`inverse_transform` use
that one fitted mapping, they are mutually inverse (a bijection between
label sets drawn from the vocabulary and fixed-width binary indicator
vectors), and inverse-transforming a transformed label set recovers exactly
that set of labels. -/
theorem mlb_roundtrip_spec :
    ∀ train : List (List String),
      (fitClasses train).Nodup ∧
      List.Sorted (· ≤ ·) (fitClasses train) ∧
      (∀ x, x ∈ fitClasses train ↔ x ∈ train.flatten) ∧
      (∀ S : List String, (∀ x ∈ S, x ∈ fitClasses train) →
        (mlbInverse (fitClasses train) (mlbTransform (fitClasses train) S)).toFinset
          = S.toFinset) ∧
      (∀ v : List ℕ, v.length = (fitClasses train).length →
        (∀ b ∈ v, b = 0 ∨ b = 1) →
        mlbTransform (fitClasses train) (mlbInverse (fitClasses train) v) = v) := by
  intro train
  have hperm : List.Perm (List.insertionSort (· ≤ ·) train.flatten.dedup)
      train.flatten.dedup :=
    List.perm_insertionSort _ _
  have hnd : (fitClasses train).Nodup :=
    hperm.nodup_iff.mpr (List.nodup_dedup _)
  refine ⟨hnd, List.sorted_insertionSort _ _, ?_, ?_, ?_⟩
  · intro x
    unfold fitClasses
    rw [hperm.mem_iff, List.mem_dedup]
  · intro S hS
    rw [mlbInverse_transform]
    ext x
    simp only [List.mem_toFinset, List.mem_filter, decide_eq_true_eq]
    exact ⟨fun h => h.2, fun h => ⟨hS x h, h⟩⟩
  · exact fun v hlen hbin => transform_mlbInverse _ v hnd hlen hbin

/-- C6 witness: fitting on two training rows both labelled a, the label set
containing a round-trips through transform and inverse_transform, and the
indicator vector 1 round-trips the other way. -/
theorem mlb_roundtrip_witness :
    (mlbInverse (fitClasses [["a"], ["a"]])
        (mlbTransform (fitClasses [["a"], ["a"]]) ["a"])).toFinset
      = (["a"] : List String).toFinset ∧
    mlbTransform (fitClasses [["a"], ["a"]])
        (mlbInverse (fitClasses [["a"], ["a"]]) [1]) = [1] :=
  ⟨(mlb_roundtrip_spec [["a"], ["a"]]).2.2.2.1 ["a"] (by decide),
    (mlb_roundtrip_spec [["a"], ["a"]]).2.2.2.2 [1] (by decide) (by decide)⟩

/-- C7: a dataset built the way the notebook builds one (texts and labels
both read off the same split, labels through the fitted binarizer) has
equally many texts and label vectors, and its declared length equals both;
no operation of the adapter mutates it. -/
theorem dataset_length_invariant :
    ∀ (df : List DataRow) (classes : List String) (tok : String → List ℕ),
      (datasetFromSplit df classes tok).texts.length =
        (datasetFromSplit df classes tok).labels.length ∧
      (datasetFromSplit df classes tok).len =
        (datasetFromSplit df classes tok).texts.length ∧
      (datasetFromSplit df classes tok).len =
        (datasetFromSplit df classes tok).labels.length := by
  intro df classes tok
  refine ⟨?_, rfl, ?_⟩ <;>
    simp [datasetFromSplit, CaseNoteDataset.len]

/-- C8: `max_len` defaults to 250, and at every valid index `__getitem__`
returns token ids and an attention mask whose lengths are both exactly
`max_len` (independently of the text), together with the label vector stored
at that index. -/
theorem getitem_spec :
    (∀ (texts : List String) (labels : List (List ℝ)) (tok : String → List ℕ),
      ({ texts := texts, labels := labels, tokenizer := tok } :
        CaseNoteDataset).max_len = 250) ∧
    (∀ (d : CaseNoteDataset) (idx : ℕ), idx < d.len →
      (d.getitem idx).input_ids.length = d.max_len ∧
      (d.getitem idx).attention_mask.length = d.max_len ∧
      (d.getitem idx).labels = d.labels.getD idx []) := by
  refine ⟨fun _ _ _ => rfl, fun d idx _ => ?_⟩
  have hlen : ((d.tokenizer (d.texts.getD idx "")).take d.max_len).length ≤ d.max_len := by
    rw [List.length_take]
    exact min_le_left _ _
  refine ⟨?_, ?_, rfl⟩
  · show (((d.tokenizer (d.texts.getD idx "")).take d.max_len) ++
      List.replicate (d.max_len - ((d.tokenizer (d.texts.getD idx "")).take d.max_len).length) 0).length = d.max_len
    rw [List.length_append, List.length_replicate]
    exact Nat.add_sub_cancel' hlen
  · show (List.replicate ((d.tokenizer (d.texts.getD idx "")).take d.max_len).length 1 ++
      List.replicate (d.max_len - ((d.tokenizer (d.texts.getD idx "")).take d.max_len).length) 0).length = d.max_len
    rw [List.length_append, List.length_replicate, List.length_replicate]
    exact Nat.add_sub_cancel' hlen


/-- C8 witness: index 0 of the concrete dataset is valid and its record has
token ids and mask of length `max_len` and the stored label vector. -/
theorem getitem_spec_witness :
    0 < witnessDataset.len ∧
    ((witnessDataset.getitem 0).input_ids.length = witnessDataset.max_len ∧
      (witnessDataset.getitem 0).attention_mask.length = witnessDataset.max_len ∧
      (witnessDataset.getitem 0).labels = witnessDataset.labels.getD 0 []) :=
  ⟨Nat.one_pos, getitem_spec.2 witnessDataset 0 Nat.one_pos⟩

end MultiLabel
